import Mathlib

/-!
Verification development for the `type-explorer` editor extension.

The definitions below are a shallow embedding of `src/TypeExplorerProvider.ts`
and `src/extension.ts`.  Document text is a `List Char`; the host editor's
language-analysis commands (`vscode.commands.executeCommand` for completions,
definitions, document symbols and hovers) are a record of functions that may
fail (`Except Unit`), and every issued request is recorded in a trace list.
The JavaScript regular expressions used by the import scanner are embedded via
a small backtracking matcher (`RE`, `reMatch`) whose alternative order follows
the JavaScript engine (greedy quantifiers, leftmost match); all quantifiers in
the source patterns range over single-character classes, so the match produced
by taking the first alternative coincides with the JavaScript result.
Interpolated identifiers (`new RegExp` built from a name) are treated as
literal text; the source escapes module paths with `escapeRegex`, so this is
exact for them, and identifier names extracted by `\w+` contain no
metacharacters.
-/

namespace TypeExplorer

/-! ## Character classes used by the scanner's regular expressions -/

def isWsChar (c : Char) : Bool :=
  c = ' ' || c = '\t' || c = '\n' || c = '\r' || c = Char.ofNat 11 || c = Char.ofNat 12

def isWordChar (c : Char) : Bool :=
  ('a' ≤ c && c ≤ 'z') || ('A' ≤ c && c ≤ 'Z') || ('0' ≤ c && c ≤ '9') || c = '_'

def squote : Char := Char.ofNat 39

def lbrace : Char := Char.ofNat 123

def rbrace : Char := Char.ofNat 125

def isQuoteChar (c : Char) : Bool := c = squote || c = '"'

def isNotQuoteChar (c : Char) : Bool := !(isQuoteChar c)

def isNotRBrace (c : Char) : Bool := c != rbrace

def isComma (c : Char) : Bool := c = ','

/-! ## Regular-expression matcher

`reMatch` returns, for a pattern and an input suffix, every way the pattern can
match a prefix of the input, as `(remaining input, captures)` pairs ordered by
the JavaScript backtracking priority (greedy quantifiers try longest first,
optionals try matching first, a sequence backtracks its left part last). -/

abbrev Caps := List (Nat × List Char)

inductive RE where
  | lit : List Char → RE
  | cls : (Char → Bool) → RE
  | starC : (Char → Bool) → RE
  | plusC : (Char → Bool) → RE
  | seq : RE → RE → RE
  | opt : RE → RE
  | grp : Nat → RE → RE

def starRests (p : Char → Bool) (cs : List Char) : List (List Char) :=
  let n := (cs.takeWhile p).length
  (List.range (n + 1)).map (fun i => cs.drop (n - i))

def plusRests (p : Char → Bool) (cs : List Char) : List (List Char) :=
  let n := (cs.takeWhile p).length
  (List.range n).map (fun i => cs.drop (n - i))

def reMatch : RE → List Char → List (List Char × Caps)
  | .lit l, cs => if cs.take l.length = l then [(cs.drop l.length, [])] else []
  | .cls p, cs =>
    match cs with
    | [] => []
    | c :: rest => if p c then [(rest, [])] else []
  | .starC p, cs => (starRests p cs).map (fun r => (r, []))
  | .plusC p, cs => (plusRests p cs).map (fun r => (r, []))
  | .seq a b, cs =>
    (reMatch a cs).flatMap (fun pr =>
      (reMatch b pr.1).map (fun qr => (qr.1, pr.2 ++ qr.2)))
  | .opt a, cs => reMatch a cs ++ [(cs, [])]
  | .grp n a, cs =>
    (reMatch a cs).map (fun pr => (pr.1, pr.2 ++ [(n, cs.take (cs.length - pr.1.length))]))

/-- First match scanning left to right, as JavaScript `RegExp.exec`:
returns `(match index, match length, captures)`. -/
def execSearch (re : RE) : List Char → Nat → Option (Nat × Nat × Caps)
  | cs, i =>
    match reMatch re cs with
    | pr :: _ => some (i, cs.length - pr.1.length, pr.2)
    | [] =>
      match cs with
      | [] => none
      | _ :: t => execSearch re t (i + 1)

/-- Successive non-overlapping matches, as a JavaScript global-flag `exec`
loop (`lastIndex` advances past each match, and by one on an empty match). -/
def execAllAux (re : RE) : Nat → List Char → Nat → List (Nat × Nat × Caps)
  | 0, _, _ => []
  | fuel + 1, cs, i =>
    match execSearch re cs i with
    | none => []
    | some (j, len, caps) =>
      let step := (j - i) + max len 1
      (j, len, caps) :: execAllAux re fuel (cs.drop step) (i + step)

def execAll (re : RE) (cs : List Char) : List (Nat × Nat × Caps) :=
  execAllAux re (cs.length + 1) cs 0

def capLookup (caps : Caps) (n : Nat) : Option (List Char) :=
  (caps.find? (fun p => p.1 == n)).map (fun p => p.2)

def seqs : List RE → RE
  | [] => .lit []
  | [r] => r
  | r :: rest => .seq r (seqs rest)

/-! ## String helpers mirroring the JavaScript ones -/

/-- JavaScript `String.prototype.trim`. -/
def jsTrim (cs : List Char) : List Char :=
  ((cs.dropWhile isWsChar).reverse.dropWhile isWsChar).reverse

/-- JavaScript `String.prototype.split(',')`. -/
def splitOnComma : List Char → List (List Char)
  | [] => [[]]
  | c :: rest =>
    if c = ',' then [] :: splitOnComma rest
    else
      match splitOnComma rest with
      | [] => [[c]]
      | g :: gs => (c :: g) :: gs

/-- The separator regex `\s+as\s+` used by `split` in the scanner. -/
def asRE : RE := seqs [.plusC isWsChar, .lit ['a', 's'], .plusC isWsChar]

/-- JavaScript `s.split(/\s+as\s+/)[0]`. -/
def firstAsSplitL (cs : List Char) : List Char :=
  match execSearch asRE cs 0 with
  | none => cs
  | some (idx, _, _) => cs.take idx

/-- JavaScript `s.split(/\s+as\s+/).pop()` (the last piece). -/
def lastAsSplitL (cs : List Char) : List Char :=
  match (execAll asRE cs).getLast? with
  | none => cs
  | some (idx, len, _) => cs.drop (idx + len)

/-! ## Positions and documents

`vscode.TextDocument.positionAt` turns a character offset into a
line/character pair. -/

structure Pos where
  line : Nat
  character : Nat
deriving DecidableEq

def positionAt (cs : List Char) (i : Nat) : Pos :=
  let pre := cs.take i
  { line := pre.count '\n', character := (pre.reverse.takeWhile (fun c => c != '\n')).length }

/-- An open text document: `document.uri` and `document.getText()`. -/
structure Document where
  uri : String
  text : List Char
deriving DecidableEq

def indexOfFrom (cs : List Char) (c : Char) (start : Nat) : Option Nat :=
  match (cs.drop start).findIdx? (fun x => x == c) with
  | some j => some (start + j)
  | none => none

/-! ## The VS Code enumerations referenced by the provider -/

inductive SymbolKind where
  | File | Module | Namespace | Package | Class | Method | Property | Field
  | Constructor | Enum | Interface | Function | Variable | Constant | String
  | Number | Boolean | Array | Object | Key | Null | EnumMember | Struct
  | Event | Operator | TypeParameter
deriving DecidableEq

inductive CompletionItemKind where
  | Text | Method | Function | Constructor | Field | Variable | Class
  | Interface | Module | Property | Unit | Value | Enum | Keyword | Snippet
  | Color | File | Reference | Folder | EnumMember | Constant | Struct
  | Event | Operator | TypeParameter | User | Issue
deriving DecidableEq

/-- `completionKindToSymbolKind` of `TypeExplorerProvider` (the
`map[kind ?? -1] ?? SymbolKind.Variable` lookup). -/
def completionKindToSymbolKind : Option CompletionItemKind → SymbolKind
  | some .Method => .Method
  | some .Function => .Function
  | some .Property => .Property
  | some .Field => .Field
  | some .Variable => .Variable
  | some .Class => .Class
  | some .Interface => .Interface
  | some .Module => .Module
  | some .Enum => .Enum
  | some .EnumMember => .EnumMember
  | some .Constant => .Constant
  | some .Constructor => .Constructor
  | some .TypeParameter => .TypeParameter
  | some .Event => .Event
  | _ => .Variable

/-! ## Tree nodes

`ImportNode` and `MemberNode` from `TypeExplorerProvider.ts`.  The source
field `documentation` is called `doc` here; `isManuallyAdded` is an optional
field in the source, with `undefined` modelled as `false`. -/

structure Location where
  uri : String
  start : Pos
deriving DecidableEq

structure ImportNode where
  name : String
  modulePath : String
  isNamespace : Bool
  location : Location
  isManuallyAdded : Bool := false
deriving DecidableEq

structure MemberNode where
  name : String
  detail : String
  symbolKind : SymbolKind
  modulePath : String
  doc : Option String
deriving DecidableEq

inductive ExplorerNode where
  | importN : ImportNode → ExplorerNode
  | memberN : MemberNode → ExplorerNode
deriving DecidableEq

/-! ## The scanner's regular expressions -/

/-- `/import\s+(?:(\w+)\s*,?\s*)?(?:\{([^}]*)\})?\s*from\s*['"]([^'"]+)['"]/g` -/
def standardRE : RE := seqs [
  .lit "import".data, .plusC isWsChar,
  .opt (seqs [.grp 1 (.plusC isWordChar), .starC isWsChar, .opt (.cls isComma), .starC isWsChar]),
  .opt (seqs [.lit [lbrace], .grp 2 (.starC isNotRBrace), .lit [rbrace]]),
  .starC isWsChar, .lit "from".data, .starC isWsChar,
  .cls isQuoteChar, .grp 3 (.plusC isNotQuoteChar), .cls isQuoteChar]

/-- `/import\s+\*\s+as\s+(\w+)\s+from\s+['"]([^'"]+)['"]/g` -/
def namespaceRE : RE := seqs [
  .lit "import".data, .plusC isWsChar, .lit ['*'], .plusC isWsChar,
  .lit ['a', 's'], .plusC isWsChar, .grp 1 (.plusC isWordChar), .plusC isWsChar,
  .lit "from".data, .plusC isWsChar,
  .cls isQuoteChar, .grp 2 (.plusC isNotQuoteChar), .cls isQuoteChar]

/-- `/import\s+type\s+\{([^}]*)\}\s+from\s+['"]([^'"]+)['"]/g` -/
def typeRE : RE := seqs [
  .lit "import".data, .plusC isWsChar, .lit "type".data, .plusC isWsChar,
  .lit [lbrace], .grp 1 (.starC isNotRBrace), .lit [rbrace], .plusC isWsChar,
  .lit "from".data, .plusC isWsChar,
  .cls isQuoteChar, .grp 2 (.plusC isNotQuoteChar), .cls isQuoteChar]

/-- Regex built in `getModuleExports` for the named-import completion
position: `import\s*\{([^}]*)\}\s*from\s*['"]PATH['"]` (the module path goes
through `escapeRegex`, hence it is matched literally). -/
def importBraceRE (modulePath : String) : RE := seqs [
  .lit "import".data, .starC isWsChar, .lit [lbrace],
  .grp 1 (.starC isNotRBrace), .lit [rbrace], .starC isWsChar,
  .lit "from".data, .starC isWsChar,
  .cls isQuoteChar, .lit modulePath.data, .cls isQuoteChar]

/-- Regex of `getAlreadyImportedNames` for named imports:
`import\s*\{([^}]+)\}\s*from\s*['"]PATH['"]` (global). -/
def alreadyRE (modulePath : String) : RE := seqs [
  .lit "import".data, .starC isWsChar, .lit [lbrace],
  .grp 1 (.plusC isNotRBrace), .lit [rbrace], .starC isWsChar,
  .lit "from".data, .starC isWsChar,
  .cls isQuoteChar, .lit modulePath.data, .cls isQuoteChar]

/-- Regex of `getAlreadyImportedNames` for a default import:
`import\s+(\w+)\s*(?:,\s*\{[^}]*\})?\s*from\s*['"]PATH['"]`. -/
def defaultRE (modulePath : String) : RE := seqs [
  .lit "import".data, .plusC isWsChar, .grp 1 (.plusC isWordChar), .starC isWsChar,
  .opt (seqs [.cls isComma, .starC isWsChar, .lit [lbrace], .starC isNotRBrace, .lit [rbrace]]),
  .starC isWsChar, .lit "from".data, .starC isWsChar,
  .cls isQuoteChar, .lit modulePath.data, .cls isQuoteChar]

/-! ## The module map built by `findImportedModules`

JavaScript `Map` keyed by module path: `set` replaces in place, insertion
order is preserved, `Array.from(map.values())` lists values in that order. -/

abbrev ImportMap := List (String × ImportNode)

def mapHas (m : ImportMap) (k : String) : Bool :=
  m.any (fun p => p.1 == k)

def mapSet (m : ImportMap) (k : String) (v : ImportNode) : ImportMap :=
  match m with
  | [] => [(k, v)]
  | (k0, v0) :: rest => if k0 = k then (k0, v) :: rest else (k0, v0) :: mapSet rest k v

/-! ## The import scanner -/

/-- Name resolution for a standard import:
`defaultImport || (namedImports ? namedImports.split(',')[0].trim().split(/\s+as\s+/).pop()?.trim() : modulePath)`
followed by `importName || modulePath` (JavaScript `||`, so the empty string
falls through). -/
def standardImportName (defaultImport namedImports : Option String)
    (modulePath : String) : String :=
  let fromNamed : Option String :=
    match namedImports with
    | some s =>
      if s.isEmpty then some modulePath
      else some (String.mk (jsTrim (lastAsSplitL (jsTrim (s.data.takeWhile (fun c => c != ','))))))
    | none => some modulePath
  let importName : Option String :=
    match defaultImport with
    | some d => if d.isEmpty then fromNamed else some d
    | none => fromNamed
  match importName with
  | some s => if s.isEmpty then modulePath else s
  | none => modulePath

def standardStep (uri : String) (text : List Char) (m : ImportMap)
    (e : Nat × Nat × Caps) : ImportMap :=
  let modulePath := String.mk ((capLookup e.2.2 3).getD [])
  if mapHas m modulePath then m
  else
    let defaultImport := (capLookup e.2.2 1).map String.mk
    let namedImports := (capLookup e.2.2 2).map String.mk
    let line := (positionAt text e.1).line
    mapSet m modulePath
      { name := standardImportName defaultImport namedImports modulePath,
        modulePath := modulePath, isNamespace := false,
        location := { uri := uri, start := { line := line, character := 0 } } }

def namespaceStep (uri : String) (text : List Char) (m : ImportMap)
    (e : Nat × Nat × Caps) : ImportMap :=
  let name := String.mk ((capLookup e.2.2 1).getD [])
  let modulePath := String.mk ((capLookup e.2.2 2).getD [])
  let line := (positionAt text e.1).line
  mapSet m modulePath
    { name := name, modulePath := modulePath, isNamespace := true,
      location := { uri := uri, start := { line := line, character := 0 } } }

def typeStep (uri : String) (text : List Char) (m : ImportMap)
    (e : Nat × Nat × Caps) : ImportMap :=
  let namedImports := (capLookup e.2.2 1).getD []
  let modulePath := String.mk ((capLookup e.2.2 2).getD [])
  if mapHas m modulePath then m
  else
    let line := (positionAt text e.1).line
    let firstName := String.mk (jsTrim (lastAsSplitL (jsTrim (namedImports.takeWhile (fun c => c != ',')))))
    mapSet m modulePath
      { name := if firstName.isEmpty then modulePath else firstName,
        modulePath := modulePath, isNamespace := false,
        location := { uri := uri, start := { line := line, character := 0 } } }

def manualStep (m : ImportMap) (pkg : ImportNode) : ImportMap :=
  if mapHas m pkg.modulePath then m else mapSet m pkg.modulePath pkg

/-- `findImportedModules`: scans the active document with the three import
regexes, then appends manually browsed packages that are not already
imported, and returns the map's values. -/
def findImportedModules (editor : Option Document)
    (manualPackages : List ImportNode) : List ImportNode :=
  match editor with
  | none => []
  | some document =>
    let text := document.text
    let m1 := (execAll standardRE text).foldl (standardStep document.uri text) []
    let m2 := (execAll namespaceRE text).foldl (namespaceStep document.uri text) m1
    let m3 := (execAll typeRE text).foldl (typeStep document.uri text) m2
    let m4 := manualPackages.foldl manualStep m3
    m4.map Prod.snd

/-! ## The host language-analysis subsystem

Each `vscode.commands.executeCommand` call used by the resolver is a field of
`Host`.  A call either throws (`Except.error`) or returns a possibly
`undefined` value (`Option`).  Every issued call is recorded as a `Request`
in a trace list. -/

inductive Request where
  | completion : String → Pos → Option Char → Request
  | definition : String → Pos → Request
  | documentSymbol : String → Request
  | hover : String → Pos → Request
deriving DecidableEq

inductive CompletionLabel where
  | str : String → CompletionLabel
  | obj : String → Option String → CompletionLabel
deriving DecidableEq

inductive CompletionDoc where
  | str : String → CompletionDoc
  | markup : String → CompletionDoc
deriving DecidableEq

/-- A completion item; the source field `documentation` is called `doc`. -/
structure CompletionItem where
  label : CompletionLabel
  kind : Option CompletionItemKind := none
  detail : Option String := none
  doc : Option CompletionDoc := none
deriving DecidableEq

inductive HoverContent where
  | str : String → HoverContent
  | withValue : String → HoverContent
  | other : HoverContent
deriving DecidableEq

structure Hover where
  contents : List HoverContent
deriving DecidableEq

inductive DefLocation where
  | loc : String → DefLocation
  | link : String → DefLocation
deriving DecidableEq

/-- `'targetUri' in def ? def.targetUri : def.uri`. -/
def DefLocation.uriOf : DefLocation → String
  | .loc u => u
  | .link u => u

structure DocumentSymbol where
  name : String
  detail : String
  kind : SymbolKind
  selectionStart : Pos
deriving DecidableEq

deriving instance DecidableEq for Except

structure Host where
  executeCompletion : String → Pos → Option Char → Except Unit (Option (List CompletionItem))
  executeDefinition : String → Pos → Except Unit (Option (List DefLocation))
  executeDocumentSymbol : String → Except Unit (Option (List DocumentSymbol))
  executeHover : String → Pos → Except Unit (Option (List Hover))

/-! ## Hover text extraction -/

/-- `typeof c === 'string' ? c : 'value' in c ? c.value : ''`. -/
def hoverContentText : HoverContent → String
  | .str s => s
  | .withValue v => v
  | .other => ""

def joinSep (sep : String) : List String → String
  | [] => ""
  | [s] => s
  | s :: rest => s ++ sep ++ joinSep sep rest

/-- Join in `getDocumentationForImportedName`: contents flattened, mapped to
text, empty strings filtered out, joined with blank lines. -/
def hoverJoinFiltered (hs : List Hover) : String :=
  joinSep "\n\n" (((hs.flatMap Hover.contents).map hoverContentText).filter (fun s => !s.isEmpty))

/-- Join in `getExportsViaDefinition`: same but without the filter. -/
def hoverJoinAll (hs : List Hover) : String :=
  joinSep "\n\n" ((hs.flatMap Hover.contents).map hoverContentText)

/-! ## Word-boundary searches for the interpolated-name regexes -/

def isWordAt (full : List Char) (i : Nat) : Bool :=
  match full.get? i with
  | some c => isWordChar c
  | none => false

/-- JavaScript `\b` at offset `i` of `full`. -/
def boundaryAt (full : List Char) (i : Nat) : Bool :=
  (if i = 0 then false else isWordAt full (i - 1)) != isWordAt full i

def matchesAt (full pat : List Char) (i : Nat) : Bool :=
  (full.drop i).take pat.length == pat

/-- First match of `\bNAME\b` (the name is matched literally). -/
def findWordBoundedAux (full pat : List Char) : List Char → Nat → Option Nat
  | rest, i =>
    if boundaryAt full i && matchesAt full pat i && boundaryAt full (i + pat.length) then some i
    else
      match rest with
      | [] => none
      | _ :: t => findWordBoundedAux full pat t (i + 1)

def findWordBounded (full pat : List Char) : Option Nat :=
  findWordBoundedAux full pat full 0

/-- First match of `\bNAME\.`; returns the offset just after the dot
(`usageMatch.index + usageMatch[0].length` in the source). -/
def findUsageDotAux (full pat : List Char) : List Char → Nat → Option Nat
  | rest, i =>
    if boundaryAt full i && matchesAt full (pat ++ ['.']) i then some (i + pat.length + 1)
    else
      match rest with
      | [] => none
      | _ :: t => findUsageDotAux full pat t (i + 1)

def findUsageDot (full pat : List Char) : Option Nat :=
  findUsageDotAux full pat full 0

/-! ## `getDocumentationForImportedName` -/

def getDocumentationForImportedName (host : Host) (uri : String) (text : List Char)
    (name : String) : Option String × List Request :=
  match findWordBounded text name.data with
  | none => (none, [])
  | some idx =>
    let pos := positionAt text idx
    match host.executeHover uri pos with
    | .error _ => (none, [.hover uri pos])
    | .ok none => (none, [.hover uri pos])
    | .ok (some hovers) =>
      if hovers.length > 0 then (some (hoverJoinFiltered hovers), [.hover uri pos])
      else (none, [.hover uri pos])

/-! ## `getAlreadyImportedNames` -/

/-- Inner loop over one brace list: split on commas, trim, take the part
before `as`, dedupe while preserving order. -/
def namesFromNamedPart (namedPart : List Char) (names : List String) : List String :=
  (splitOnComma namedPart).foldl (fun ns item =>
    let trimmed := jsTrim item
    if trimmed.isEmpty then ns
    else
      let originalName := String.mk (jsTrim (firstAsSplitL trimmed))
      if !originalName.isEmpty && !ns.contains originalName then ns ++ [originalName]
      else ns) names

def getAlreadyImportedNames (text : List Char) (modulePath : String) : List String :=
  let names := (execAll (alreadyRE modulePath) text).foldl (fun ns e =>
      namesFromNamedPart ((capLookup e.2.2 1).getD []) ns) []
  match execSearch (defaultRE modulePath) text 0 with
  | some (_, _, caps) =>
    match capLookup caps 1 with
    | some d =>
      let s := String.mk d
      if !s.isEmpty && !names.contains s then names ++ [s] else names
    | none => names
  | none => names

/-! ## `processCompletionItems` -/

def skipItem (item : CompletionItem) : Bool :=
  item.kind == some .Keyword || item.kind == some .Snippet || item.kind == some .Text

def labelText : CompletionLabel → String
  | .str s => s
  | .obj s _ => s

/-- `typeof item.label === 'object' && item.label.detail ? item.label.detail : (item.detail || '')`. -/
def itemDetail (item : CompletionItem) : String :=
  match item.label with
  | .obj _ (some d) => if d.isEmpty then item.detail.getD "" else d
  | _ => item.detail.getD ""

/-- Documentation carried by the completion item itself (`if (item.documentation)`
with JavaScript truthiness; a `MarkupContent` object is always truthy). -/
def itemDocText (item : CompletionItem) : Option String :=
  match item.doc with
  | none => none
  | some (.str s) => if s.isEmpty then none else some s
  | some (.markup v) => some v

/-- JavaScript falsiness of a possibly-undefined string. -/
def jsFalsyStr : Option String → Bool
  | none => true
  | some s => s.isEmpty

/-- One iteration of the `processCompletionItems` loop (after the skip test). -/
def memberOfItem (host : Host) (uri : String) (text : List Char) (modulePath : String)
    (item : CompletionItem) : MemberNode × List Request :=
  let label := labelText item.label
  let d0 := itemDocText item
  let enriched :=
    if jsFalsyStr d0 then getDocumentationForImportedName host uri text label
    else (d0, [])
  ({ name := label, detail := itemDetail item,
     symbolKind := completionKindToSymbolKind item.kind,
     modulePath := modulePath, doc := enriched.1 }, enriched.2)

def processCompletionItems (host : Host) (uri : String) (text : List Char)
    (modulePath : String) : List CompletionItem → List MemberNode × List Request
  | [] => ([], [])
  | item :: rest =>
    if skipItem item then processCompletionItems host uri text modulePath rest
    else
      let mi := memberOfItem host uri text modulePath item
      let ms := processCompletionItems host uri text modulePath rest
      (mi.1 :: ms.1, mi.2 ++ ms.2)

/-! ## Adding already-imported names missing from the completions -/

def addAlreadyImported (host : Host) (uri : String) (text : List Char) (modulePath : String) :
    List String → List MemberNode → List MemberNode × List Request
  | [], acc => (acc, [])
  | name :: rest, acc =>
    if (acc.find? (fun m => m.name == name)).isSome then
      addAlreadyImported host uri text modulePath rest acc
    else
      let di := getDocumentationForImportedName host uri text name
      let acc2 := acc ++ [{ name := name, detail := "", symbolKind := SymbolKind.Variable,
                            modulePath := modulePath, doc := di.1 }]
      let res := addAlreadyImported host uri text modulePath rest acc2
      (res.1, di.2 ++ res.2)

/-! ## The sort at the end of the completion path -/

def sortPriority : SymbolKind → Nat
  | .Class => 0
  | .Interface => 1
  | .Enum => 2
  | .Function => 3
  | .Constant => 4
  | _ => 5

/-- `a` need not come strictly after `b` under the source comparator
(priority difference, then `localeCompare`, the latter modelled as the
code-point order on strings). -/
def memberCmpLe (a b : MemberNode) : Bool :=
  decide (sortPriority a.symbolKind < sortPriority b.symbolKind) ||
    (sortPriority a.symbolKind == sortPriority b.symbolKind && decide (a.name ≤ b.name))

def insertSorted (x : MemberNode) : List MemberNode → List MemberNode
  | [] => [x]
  | y :: l => if memberCmpLe x y then x :: y :: l else y :: insertSorted x l

/-- Stable sort, as `Array.prototype.sort`. -/
def sortMembers : List MemberNode → List MemberNode
  | [] => []
  | x :: l => insertSorted x (sortMembers l)

/-! ## The member cache -/

abbrev MemberCache := List (String × List MemberNode)

def cacheGet (c : MemberCache) (k : String) : Option (List MemberNode) :=
  (c.find? (fun p => p.1 == k)).map (fun p => p.2)

def cacheSet (c : MemberCache) (k : String) (v : List MemberNode) : MemberCache :=
  match c with
  | [] => [(k, v)]
  | (k0, v0) :: rest => if k0 = k then (k0, v) :: rest else (k0, v0) :: cacheSet rest k v

def cacheDelete (c : MemberCache) (k : String) : MemberCache :=
  c.filter (fun p => p.1 != k)

/-! ## `getExportsViaDefinition` -/

def symbolsToMembers (host : Host) (defUri modulePath : String) :
    List DocumentSymbol → Except Unit (List MemberNode) × List Request
  | [] => (.ok [], [])
  | sym :: rest =>
    let req : Request := .hover defUri sym.selectionStart
    match host.executeHover defUri sym.selectionStart with
    | .error e => (.error e, [req])
    | .ok hopt =>
      let d : Option String :=
        match hopt with
        | some hs => if hs.length > 0 then some (hoverJoinAll hs) else none
        | none => none
      match symbolsToMembers host defUri modulePath rest with
      | (.ok ms, tr) =>
        (.ok ({ name := sym.name, detail := sym.detail, symbolKind := sym.kind,
                modulePath := modulePath, doc := d } :: ms), req :: tr)
      | (.error e, tr) => (.error e, req :: tr)

/-- Fallback resolution: ask for the import's definition, then the document
symbols of the definition file, with hover text per symbol.  Its own
`try`/`catch` swallows every error and returns `[]`; the cache is updated
only on full success. -/
def getExportsViaDefinition (host : Host) (document : Document) (cache : MemberCache)
    (importNode : ImportNode) : (List MemberNode × MemberCache) × List Request :=
  let dreq : Request := .definition document.uri importNode.location.start
  match host.executeDefinition document.uri importNode.location.start with
  | .error _ => (([], cache), [dreq])
  | .ok none => (([], cache), [dreq])
  | .ok (some []) => (([], cache), [dreq])
  | .ok (some (d :: _)) =>
    let defUri := d.uriOf
    if defUri = document.uri then (([], cache), [dreq])
    else
      let sreq : Request := .documentSymbol defUri
      match host.executeDocumentSymbol defUri with
      | .error _ => (([], cache), [dreq, sreq])
      | .ok none => (([], cache), [dreq, sreq])
      | .ok (some syms) =>
        if syms.length = 0 then (([], cache), [dreq, sreq])
        else
          match symbolsToMembers host defUri importNode.modulePath syms with
          | (.ok ms, tr) => ((ms, cacheSet cache importNode.modulePath ms), dreq :: sreq :: tr)
          | (.error _, tr) => (([], cache), dreq :: sreq :: tr)

/-! ## `getModuleExports` -/

/-- The synthetic completion position: for a namespace import, just after the
dot of the first `NAME.` usage (trigger character `'.'`); otherwise just
after the opening brace of the module's named-import list. -/
def completionPositionInfo (text : List Char) (importNode : ImportNode) :
    Option (Pos × Option Char) :=
  if importNode.isNamespace then
    match findUsageDot text importNode.name.data with
    | some dotPos => some (positionAt text dotPos, some '.')
    | none => none
  else
    match execSearch (importBraceRE importNode.modulePath) text 0 with
    | some (idx, _, _) =>
      let bracePos1 :=
        match indexOfFrom text lbrace idx with
        | some j => j + 1
        | none => 0
      some (positionAt text bracePos1, none)
    | none => none

/-- Body of the `try` block of `getModuleExports` (entered after the cache
and active-editor checks). -/
def getModuleExportsTry (host : Host) (document : Document) (cache : MemberCache)
    (importNode : ImportNode) : Except Unit (List MemberNode × MemberCache) × List Request :=
  let text := document.text
  let alreadyImported := getAlreadyImportedNames text importNode.modulePath
  match completionPositionInfo text importNode with
  | none =>
    let fb := getExportsViaDefinition host document cache importNode
    (.ok fb.1, fb.2)
  | some (cpos, trig) =>
    let creq : Request := .completion document.uri cpos trig
    match host.executeCompletion document.uri cpos trig with
    | .error e => (.error e, [creq])
    | .ok copt =>
      match copt with
      | none =>
        let fb := getExportsViaDefinition host document cache importNode
        (.ok fb.1, creq :: fb.2)
      | some items =>
        if items.length = 0 then
          let fb := getExportsViaDefinition host document cache importNode
          (.ok fb.1, creq :: fb.2)
        else
          let pc := processCompletionItems host document.uri text importNode.modulePath items
          let ai := addAlreadyImported host document.uri text importNode.modulePath
                      alreadyImported pc.1
          let sorted := sortMembers ai.1
          (.ok (sorted, cacheSet cache importNode.modulePath sorted), creq :: (pc.2 ++ ai.2))

/-- `getModuleExports`: cache check, active-editor check, then the `try`
block; a thrown error is caught and an empty list returned.  The result is
`(members, new cache, issued host requests)`. -/
def getModuleExports (host : Host) (editor : Option Document)
    (cache : MemberCache) (importNode : ImportNode) :
    List MemberNode × MemberCache × List Request :=
  match cacheGet cache importNode.modulePath with
  | some ms => (ms, cache, [])
  | none =>
    match editor with
    | none => ([], cache, [])
    | some document =>
      match getModuleExportsTry host document cache importNode with
      | (.ok (ms, c2), tr) => (ms, c2, tr)
      | (.error _, tr) => ([], cache, tr)

/-! ## Provider state, `refresh`, `addPackage`, `getChildren` -/

structure ProviderState where
  memberCache : MemberCache
  manualPackages : List ImportNode
deriving DecidableEq

/-- `refresh`: clears the member cache and fires the tree-change event. -/
def refresh (s : ProviderState) : ProviderState :=
  { memberCache := [], manualPackages := s.manualPackages }

def mkManualNode (packageName : String) : ImportNode :=
  { name := packageName, modulePath := packageName, isNamespace := true,
    isManuallyAdded := true,
    location := { uri := "", start := { line := 0, character := 0 } } }

/-- `addPackage`: no-op when a manual package with that module path already
exists; otherwise appends the node and drops any cached members for it. -/
def addPackage (s : ProviderState) (packageName : String) : ProviderState :=
  if (s.manualPackages.find? (fun p => p.modulePath == packageName)).isSome then s
  else
    { memberCache := cacheDelete s.memberCache packageName,
      manualPackages := s.manualPackages ++ [mkManualNode packageName] }

/-- `getChildren`: root requests run the scanner, import nodes run the
resolver, member nodes have no children. -/
def getChildren (host : Host) (editor : Option Document) (s : ProviderState) :
    Option ExplorerNode → List ExplorerNode × MemberCache × List Request
  | none =>
    ((findImportedModules editor s.manualPackages).map ExplorerNode.importN,
      s.memberCache, [])
  | some (.importN n) =>
    let r := getModuleExports host editor s.memberCache n
    (r.1.map ExplorerNode.memberN, r.2.1, r.2.2)
  | some (.memberN _) => ([], s.memberCache, [])

/-! ## The documentation webview HTML (`getDocumentationHtml` in `extension.ts`) -/

/-- One chained `String.prototype.replace` with a global single-character
pattern. -/
def replaceAllChar (target : Char) (repl : List Char) : List Char → List Char
  | [] => []
  | c :: rest => (if c = target then repl else [c]) ++ replaceAllChar target repl rest

/-- `escapeHtml`: `&` first, then `<`, `>`, `"`. -/
def escapeHtml (s : String) : String :=
  String.mk (replaceAllChar '"' "&quot;".data
    (replaceAllChar '>' "&gt;".data
      (replaceAllChar '<' "&lt;".data
        (replaceAllChar '&' "&amp;".data s.data))))

def hexDigit (n : Nat) : Char :=
  if n < 10 then Char.ofNat (48 + n) else Char.ofNat (87 + n)

/-- Escaping of one character inside a `JSON.stringify` string literal. -/
def jsonEscapeChar (c : Char) : List Char :=
  if c = '"' then ['\\', '"']
  else if c = '\\' then ['\\', '\\']
  else if c = Char.ofNat 8 then ['\\', 'b']
  else if c = '\t' then ['\\', 't']
  else if c = '\n' then ['\\', 'n']
  else if c = Char.ofNat 12 then ['\\', 'f']
  else if c = '\r' then ['\\', 'r']
  else if c.toNat < 32 then ['\\', 'u', '0', '0', hexDigit (c.toNat / 16), hexDigit (c.toNat % 16)]
  else if c.toNat = 8232 then ['\\', 'u', '2', '0', '2', '8']
  else if c.toNat = 8233 then ['\\', 'u', '2', '0', '2', '9']
  else [c]

/-- `JSON.stringify` applied to a string. -/
def jsonStringify (s : String) : String :=
  String.mk ('"' :: s.data.flatMap jsonEscapeChar ++ ['"'])

def apos : String := String.mk [squote]

/-- Template text before the `<title>` interpolation. -/
def htmlA : String :=
  "<!DOCTYPE html>\n<html lang=\"en\">\n<head>\n\t<meta charset=\"UTF-8\">\n\t<meta name=\"viewport\" content=\"width=device-width, initial-scale=1.0\">\n\t<title>"

def htmlCss : String :=
  "\t\tbody \x7b\n\t\t\tfont-family: var(--vscode-font-family);\n\t\t\tpadding: 20px;\n\t\t\tcolor: var(--vscode-foreground);\n\t\t\tbackground: var(--vscode-editor-background);\n\t\t\tline-height: 1.6;\n\t\t\x7d\n" ++
  "\t\th1 \x7b\n\t\t\tcolor: var(--vscode-textLink-foreground);\n\t\t\tmargin-bottom: 5px;\n\t\t\tfont-size: 1.5em;\n\t\t\x7d\n" ++
  "\t\th2 \x7b\n\t\t\tcolor: var(--vscode-textLink-foreground);\n\t\t\tmargin-top: 1.5em;\n\t\t\tfont-size: 1.3em;\n\t\t\tborder-bottom: 1px solid var(--vscode-widget-border);\n\t\t\tpadding-bottom: 5px;\n\t\t\x7d\n" ++
  "\t\th3 \x7b\n\t\t\tcolor: var(--vscode-textLink-foreground);\n\t\t\tmargin-top: 1.2em;\n\t\t\tfont-size: 1.1em;\n\t\t\x7d\n" ++
  "\t\th4 \x7b\n\t\t\tcolor: var(--vscode-textLink-foreground);\n\t\t\tmargin-top: 1em;\n\t\t\x7d\n" ++
  "\t\t.module \x7b\n\t\t\tcolor: var(--vscode-descriptionForeground);\n\t\t\tfont-size: 0.9em;\n\t\t\tmargin-bottom: 20px;\n\t\t\x7d\n" ++
  "\t\t.signature \x7b\n\t\t\tbackground: var(--vscode-textBlockQuote-background);\n\t\t\tpadding: 12px;\n\t\t\tborder-radius: 4px;\n\t\t\tfont-family: var(--vscode-editor-font-family);\n\t\t\tfont-size: var(--vscode-editor-font-size);\n\t\t\toverflow-x: auto;\n\t\t\tmargin-bottom: 20px;\n\t\t\twhite-space: pre-wrap;\n\t\t\x7d\n" ++
  "\t\tcode \x7b\n\t\t\tbackground: var(--vscode-textBlockQuote-background);\n\t\t\tpadding: 2px 6px;\n\t\t\tborder-radius: 3px;\n\t\t\tfont-family: var(--vscode-editor-font-family);\n\t\t\x7d\n" ++
  "\t\tpre \x7b\n\t\t\tbackground: var(--vscode-textBlockQuote-background);\n\t\t\tpadding: 12px;\n\t\t\tborder-radius: 4px;\n\t\t\toverflow-x: auto;\n\t\t\x7d\n" ++
  "\t\tpre code \x7b\n\t\t\tpadding: 0;\n\t\t\tbackground: transparent;\n\t\t\x7d\n" ++
  "\t\thr \x7b\n\t\t\tborder: none;\n\t\t\tborder-top: 1px solid var(--vscode-widget-border);\n\t\t\tmargin: 20px 0;\n\t\t\x7d\n" ++
  "\t\tul, ol \x7b\n\t\t\tpadding-left: 20px;\n\t\t\x7d\n" ++
  "\t\tli \x7b\n\t\t\tmargin: 5px 0;\n\t\t\x7d\n" ++
  "\t\tstrong \x7b\n\t\t\tcolor: var(--vscode-textLink-activeForeground);\n\t\t\x7d\n" ++
  "\t\ta \x7b\n\t\t\tcolor: var(--vscode-textLink-foreground);\n\t\t\x7d\n" ++
  "\t\tblockquote \x7b\n\t\t\tborder-left: 3px solid var(--vscode-textBlockQuote-border);\n\t\t\tmargin: 10px 0;\n\t\t\tpadding-left: 15px;\n\t\t\tcolor: var(--vscode-descriptionForeground);\n\t\t\x7d\n" ++
  "\t\ttable \x7b\n\t\t\tborder-collapse: collapse;\n\t\t\twidth: 100%;\n\t\t\tmargin: 15px 0;\n\t\t\x7d\n" ++
  "\t\tth, td \x7b\n\t\t\tborder: 1px solid var(--vscode-widget-border);\n\t\t\tpadding: 8px;\n\t\t\ttext-align: left;\n\t\t\x7d\n" ++
  "\t\tth \x7b\n\t\t\tbackground: var(--vscode-textBlockQuote-background);\n\t\t\x7d\n"

/-- Template text between the `<title>` interpolation and the literal
`<h1>`. -/
def htmlB0 : String :=
  "</title>\n\t<script src=\"https://cdn.jsdelivr.net/npm/marked/marked.min.js\"></script>\n\t<link rel=\"stylesheet\" href=\"https://cdn.jsdelivr.net/npm/highlight.js@11/styles/vs2015.min.css\">\n\t<script src=\"https://cdn.jsdelivr.net/npm/highlight.js@11\"></script>\n\t<style>\n" ++
  htmlCss ++ "\t</style>\n</head>\n<body>\n\t"

/-- Between `</h1>` and the literal `from <code>` of the module line. -/
def htmlC0 : String := "\n\t<div class=\"module\">"

/-- Between `</code></div>` and the conditional signature block. -/
def htmlD0 : String := "\n\t"

/-- Between the signature block and `const docContent = `. -/
def htmlE0 : String :=
  "\n\t<hr>\n\t<div id=\"documentation\"></div>\n\t<script>\n\t\t"

/-- Template tail after `;` following the document content. -/
def htmlF0 : String :=
  "\n\t\tmarked.setOptions(\x7b\n\t\t\thighlight: function(code, lang) \x7b\n\t\t\t\tif (lang && hljs.getLanguage(lang)) \x7b\n\t\t\t\t\treturn hljs.highlight(code, \x7b language: lang \x7d).value;\n\t\t\t\t\x7d\n\t\t\t\treturn hljs.highlightAuto(code).value;\n\t\t\t\x7d,\n\t\t\tbreaks: true,\n\t\t\tgfm: true\n\t\t\x7d);\n\t\tdocument.getElementById(" ++
  apos ++ "documentation" ++ apos ++
  ").innerHTML = marked.parse(docContent);\n\t</script>\n</body>\n</html>"

/-- `member.documentation || 'No documentation available.'`. -/
def docBodyOf (member : MemberNode) : String :=
  match member.doc with
  | some s => if s.isEmpty then "No documentation available." else s
  | none => "No documentation available."

/-- `getDocumentationHtml`: the member's name, detail and module path are
HTML-escaped; the raw documentation body is embedded as a JavaScript string
literal (`JSON.stringify`) and rendered client-side by `marked.parse`. -/
def getDocumentationHtml (member : MemberNode) : String :=
  let name := escapeHtml member.name
  let detail := if member.detail.isEmpty then "" else escapeHtml member.detail
  let modulePath := escapeHtml member.modulePath
  htmlA ++ name ++ htmlB0 ++ "<h1>" ++ name ++ "</h1>" ++ htmlC0 ++ "from <code>" ++
  modulePath ++ "</code></div>" ++ htmlD0 ++
  (if detail.isEmpty then "" else "<div class=\"signature\">" ++ detail ++ "</div>") ++
  htmlE0 ++ "const docContent = " ++ jsonStringify (docBodyOf member) ++ ";" ++ htmlF0

/-! ## The module map: keys are module paths and stay distinct -/

def mapKeys (m : ImportMap) : List String := m.map Prod.fst

/-- Invariant of the scanner's module map: keys are pairwise distinct and each
entry is keyed by its node's module path. -/
def MapInv (m : ImportMap) : Prop :=
  (mapKeys m).Nodup ∧ ∀ p ∈ m, p.1 = p.2.modulePath

theorem mapHas_iff_mem (m : ImportMap) (k : String) :
    mapHas m k = true ↔ k ∈ mapKeys m := by
  rw [mapHas, List.any_eq_true, mapKeys, List.mem_map]
  constructor
  · rintro ⟨p, hp, hpk⟩
    exact ⟨p, hp, by simpa [beq_iff_eq] using hpk⟩
  · rintro ⟨p, hp, hpk⟩
    exact ⟨p, hp, by simpa [beq_iff_eq] using hpk⟩

theorem mem_mapKeys_mapSet (m : ImportMap) (k : String) (v : ImportNode) (x : String) :
    x ∈ mapKeys (mapSet m k v) ↔ x ∈ mapKeys m ∨ x = k := by
  induction m with
  | nil => simp [mapSet, mapKeys]
  | cons p rest ih =>
    obtain ⟨k0, v0⟩ := p
    simp only [mapKeys] at ih ⊢
    simp only [mapSet]
    split
    next h =>
      subst h
      simp only [List.map_cons, List.mem_cons]
      tauto
    next h =>
      simp only [List.map_cons, List.mem_cons, ih]
      tauto

theorem nodup_mapKeys_mapSet (m : ImportMap) (k : String) (v : ImportNode)
    (h : (mapKeys m).Nodup) : (mapKeys (mapSet m k v)).Nodup := by
  induction m with
  | nil => simp [mapSet, mapKeys]
  | cons p rest ih =>
    obtain ⟨k0, v0⟩ := p
    simp only [mapKeys, List.map_cons, List.nodup_cons] at h
    simp only [mapKeys, mapSet]
    split
    next hk =>
      simp only [List.map_cons, List.nodup_cons]
      exact h
    next hk =>
      simp only [List.map_cons, List.nodup_cons]
      constructor
      · intro hmem
        rcases (mem_mapKeys_mapSet rest k v k0).1 (by simpa [mapKeys] using hmem) with h1 | h1
        · exact h.1 (by simpa [mapKeys] using h1)
        · exact hk h1
      · exact ih h.2

theorem mem_mapSet (m : ImportMap) (k : String) (v : ImportNode) (p : String × ImportNode)
    (hp : p ∈ mapSet m k v) : p ∈ m ∨ p = (k, v) := by
  induction m with
  | nil =>
    simp only [mapSet, List.mem_singleton] at hp
    exact Or.inr hp
  | cons q rest ih =>
    obtain ⟨k0, v0⟩ := q
    simp only [mapSet] at hp
    by_cases hk : k0 = k
    · rw [if_pos hk] at hp
      rcases List.mem_cons.1 hp with h1 | h1
      · subst hk
        exact Or.inr h1
      · exact Or.inl (List.mem_cons_of_mem _ h1)
    · rw [if_neg hk] at hp
      rcases List.mem_cons.1 hp with h1 | h1
      · exact Or.inl (h1 ▸ List.mem_cons_self _ _)
      · rcases ih h1 with h2 | h2
        · exact Or.inl (List.mem_cons_of_mem _ h2)
        · exact Or.inr h2

theorem snd_mapSet (m : ImportMap) (k : String) (v : ImportNode)
    (h : ∀ p ∈ m, p.1 = p.2.modulePath) (hv : v.modulePath = k) :
    ∀ p ∈ mapSet m k v, p.1 = p.2.modulePath := by
  intro p hp
  rcases mem_mapSet m k v p hp with h1 | h1
  · exact h p h1
  · subst h1
    exact hv.symm

theorem mapInv_mapSet (m : ImportMap) (k : String) (v : ImportNode)
    (h : MapInv m) (hv : v.modulePath = k) : MapInv (mapSet m k v) :=
  ⟨nodup_mapKeys_mapSet m k v h.1, snd_mapSet m k v h.2 hv⟩

theorem foldl_pres {α β : Type} (P : α → Prop) (f : α → β → α)
    (h : ∀ a b, P a → P (f a b)) :
    ∀ (l : List β) (a : α), P a → P (l.foldl f a) := by
  intro l
  induction l with
  | nil => intro a ha; exact ha
  | cons b rest ih => intro a ha; exact ih (f a b) (h a b ha)

theorem standardStep_inv (uri : String) (text : List Char) (m : ImportMap)
    (e : Nat × Nat × Caps) (h : MapInv m) : MapInv (standardStep uri text m e) := by
  simp only [standardStep]
  split
  · exact h
  · exact mapInv_mapSet _ _ _ h rfl

theorem namespaceStep_inv (uri : String) (text : List Char) (m : ImportMap)
    (e : Nat × Nat × Caps) (h : MapInv m) : MapInv (namespaceStep uri text m e) :=
  mapInv_mapSet _ _ _ h rfl

theorem typeStep_inv (uri : String) (text : List Char) (m : ImportMap)
    (e : Nat × Nat × Caps) (h : MapInv m) : MapInv (typeStep uri text m e) := by
  simp only [typeStep]
  split
  · exact h
  · exact mapInv_mapSet _ _ _ h rfl

theorem manualStep_inv (m : ImportMap) (pkg : ImportNode) (h : MapInv m) :
    MapInv (manualStep m pkg) := by
  simp only [manualStep]
  split
  · exact h
  · exact mapInv_mapSet _ _ _ h rfl

theorem findImportedModules_mapInv (document : Document) (manualPackages : List ImportNode) :
    MapInv ((manualPackages.foldl manualStep
      ((execAll typeRE document.text).foldl (typeStep document.uri document.text)
        ((execAll namespaceRE document.text).foldl (namespaceStep document.uri document.text)
          ((execAll standardRE document.text).foldl (standardStep document.uri document.text) []))))) := by
  refine foldl_pres MapInv manualStep manualStep_inv _ _ ?_
  refine foldl_pres MapInv _ (typeStep_inv document.uri document.text) _ _ ?_
  refine foldl_pres MapInv _ (namespaceStep_inv document.uri document.text) _ _ ?_
  refine foldl_pres MapInv _ (standardStep_inv document.uri document.text) _ _ ?_
  exact ⟨List.nodup_nil, by intro p hp; cases hp⟩

theorem nodup_map_modulePath_of_inv (m : ImportMap) (h : MapInv m) :
    ((m.map Prod.snd).map ImportNode.modulePath).Nodup := by
  rw [List.map_map]
  have heq : List.map (ImportNode.modulePath ∘ Prod.snd) m = List.map Prod.fst m :=
    List.map_congr_left (fun p hp => (h.2 p hp).symm)
  rw [heq]
  exact h.1

/-! ## Key membership through the scanner's folds (for C6) -/

def standardPathOf (e : Nat × Nat × Caps) : String :=
  String.mk ((capLookup e.2.2 3).getD [])

/-- Module-path capture of the namespace and type-only regexes (group 2). -/
def nsPathOf (e : Nat × Nat × Caps) : String :=
  String.mk ((capLookup e.2.2 2).getD [])

theorem mem_mapKeys_standardStep (uri : String) (text : List Char) (m : ImportMap)
    (e : Nat × Nat × Caps) (x : String) (hx : x ∈ mapKeys m) :
    x ∈ mapKeys (standardStep uri text m e) := by
  simp only [standardStep]
  split
  · exact hx
  · exact (mem_mapKeys_mapSet _ _ _ _).2 (Or.inl hx)

theorem mem_mapKeys_namespaceStep (uri : String) (text : List Char) (m : ImportMap)
    (e : Nat × Nat × Caps) (x : String) (hx : x ∈ mapKeys m) :
    x ∈ mapKeys (namespaceStep uri text m e) :=
  (mem_mapKeys_mapSet _ _ _ _).2 (Or.inl hx)

theorem mem_mapKeys_typeStep (uri : String) (text : List Char) (m : ImportMap)
    (e : Nat × Nat × Caps) (x : String) (hx : x ∈ mapKeys m) :
    x ∈ mapKeys (typeStep uri text m e) := by
  simp only [typeStep]
  split
  · exact hx
  · exact (mem_mapKeys_mapSet _ _ _ _).2 (Or.inl hx)

theorem mem_mapKeys_manualStep (m : ImportMap) (pkg : ImportNode) (x : String)
    (hx : x ∈ mapKeys m) : x ∈ mapKeys (manualStep m pkg) := by
  simp only [manualStep]
  split
  · exact hx
  · exact (mem_mapKeys_mapSet _ _ _ _).2 (Or.inl hx)

theorem standardStep_mem (uri : String) (text : List Char) (m : ImportMap)
    (e : Nat × Nat × Caps) : standardPathOf e ∈ mapKeys (standardStep uri text m e) := by
  simp only [standardStep, standardPathOf]
  split
  next h => exact (mapHas_iff_mem _ _).1 h
  next h => exact (mem_mapKeys_mapSet _ _ _ _).2 (Or.inr rfl)

theorem namespaceStep_mem (uri : String) (text : List Char) (m : ImportMap)
    (e : Nat × Nat × Caps) : nsPathOf e ∈ mapKeys (namespaceStep uri text m e) :=
  (mem_mapKeys_mapSet _ _ _ _).2 (Or.inr rfl)

theorem typeStep_mem (uri : String) (text : List Char) (m : ImportMap)
    (e : Nat × Nat × Caps) : nsPathOf e ∈ mapKeys (typeStep uri text m e) := by
  simp only [typeStep, nsPathOf]
  split
  next h => exact (mapHas_iff_mem _ _).1 h
  next h => exact (mem_mapKeys_mapSet _ _ _ _).2 (Or.inr rfl)

/-- If one element of the fold inserts `x` into the keys and every step keeps
existing keys, `x` is a key of the fold's result. -/
theorem mem_mapKeys_foldl {β : Type} (f : ImportMap → β → ImportMap) (x : String) (e : β)
    (hpres : ∀ m b, x ∈ mapKeys m → x ∈ mapKeys (f m b))
    (hadd : ∀ m, x ∈ mapKeys (f m e)) :
    ∀ (l : List β) (m : ImportMap), e ∈ l → x ∈ mapKeys (l.foldl f m)
  | [], m, he => absurd he (List.not_mem_nil e)
  | b :: rest, m, he => by
    rcases List.mem_cons.1 he with h1 | h1
    · subst h1
      exact foldl_pres (fun mm => x ∈ mapKeys mm) f hpres rest (f m e) (hadd m)
    · exact mem_mapKeys_foldl f x e hpres hadd rest (f m b) h1

theorem mem_map_snd_of_mem_mapKeys (m : ImportMap) (h : MapInv m) (x : String)
    (hx : x ∈ mapKeys m) : ∃ node ∈ m.map Prod.snd, node.modulePath = x := by
  rcases List.mem_map.1 hx with ⟨p, hp, hfst⟩
  refine ⟨p.2, List.mem_map_of_mem Prod.snd hp, ?_⟩
  rw [← h.2 p hp]
  exact hfst

/-- C2: the import scanner never returns two nodes with the same module path. -/
theorem findImportedModules_modulePaths_nodup (editor : Option Document)
    (manualPackages : List ImportNode) :
    ((findImportedModules editor manualPackages).map ImportNode.modulePath).Nodup := by
  cases editor with
  | none => simp [findImportedModules]
  | some document =>
    have hInv := findImportedModules_mapInv document manualPackages
    simp only [findImportedModules]
    exact nodup_map_modulePath_of_inv _ hInv

/-- C6: a document whose text contains an import declaration of one of the
four scanned forms — default, named, namespace, or type-only — yields a
module-reference node for that import's module specifier.  A standard-form
match (default or named import) captures the specifier in group 3; a
namespace or type-only match captures it in group 2. -/
theorem findImportedModules_covers_import_forms (document : Document)
    (manualPackages : List ImportNode) (path : String)
    (h : (∃ e ∈ execAll standardRE document.text, standardPathOf e = path) ∨
         (∃ e ∈ execAll namespaceRE document.text, nsPathOf e = path) ∨
         (∃ e ∈ execAll typeRE document.text, nsPathOf e = path)) :
    ∃ node ∈ findImportedModules (some document) manualPackages,
      node.modulePath = path := by
  have hInv := findImportedModules_mapInv document manualPackages
  simp only [findImportedModules]
  apply mem_map_snd_of_mem_mapKeys _ hInv
  rcases h with ⟨e, he, rfl⟩ | ⟨e, he, rfl⟩ | ⟨e, he, rfl⟩
  · apply foldl_pres (fun mm => standardPathOf e ∈ mapKeys mm) manualStep
      (fun m b hx => mem_mapKeys_manualStep m b _ hx)
    apply foldl_pres (fun mm => standardPathOf e ∈ mapKeys mm) _
      (fun m b hx => mem_mapKeys_typeStep document.uri document.text m b _ hx)
    apply foldl_pres (fun mm => standardPathOf e ∈ mapKeys mm) _
      (fun m b hx => mem_mapKeys_namespaceStep document.uri document.text m b _ hx)
    exact mem_mapKeys_foldl (standardStep document.uri document.text) _ e
      (fun m b hx => mem_mapKeys_standardStep document.uri document.text m b _ hx)
      (fun m => standardStep_mem document.uri document.text m e) _ _ he
  · apply foldl_pres (fun mm => nsPathOf e ∈ mapKeys mm) manualStep
      (fun m b hx => mem_mapKeys_manualStep m b _ hx)
    apply foldl_pres (fun mm => nsPathOf e ∈ mapKeys mm) _
      (fun m b hx => mem_mapKeys_typeStep document.uri document.text m b _ hx)
    exact mem_mapKeys_foldl (namespaceStep document.uri document.text) _ e
      (fun m b hx => mem_mapKeys_namespaceStep document.uri document.text m b _ hx)
      (fun m => namespaceStep_mem document.uri document.text m e) _ _ he
  · apply foldl_pres (fun mm => nsPathOf e ∈ mapKeys mm) manualStep
      (fun m b hx => mem_mapKeys_manualStep m b _ hx)
    exact mem_mapKeys_foldl (typeStep document.uri document.text) _ e
      (fun m b hx => mem_mapKeys_typeStep document.uri document.text m b _ hx)
      (fun m => typeStep_mem document.uri document.text m e) _ _ he

/-- C6 witness: a concrete document with all four import forms. -/
theorem findImportedModules_covers_import_forms_witness :
    ((∃ e ∈ execAll standardRE ("import D from \"mdef\"\nimport \x7b N \x7d from \"mnamed\"\nimport * as NS from \"mstar\"\nimport type \x7b T \x7d from \"mtype\"\n" : String).data, standardPathOf e = "mdef") ∧
      ∃ node ∈ findImportedModules (some { uri := "file:a.ts", text := ("import D from \"mdef\"\nimport \x7b N \x7d from \"mnamed\"\nimport * as NS from \"mstar\"\nimport type \x7b T \x7d from \"mtype\"\n" : String).data }) [], node.modulePath = "mdef") ∧
    ((∃ e ∈ execAll standardRE ("import D from \"mdef\"\nimport \x7b N \x7d from \"mnamed\"\nimport * as NS from \"mstar\"\nimport type \x7b T \x7d from \"mtype\"\n" : String).data, standardPathOf e = "mnamed") ∧
      ∃ node ∈ findImportedModules (some { uri := "file:a.ts", text := ("import D from \"mdef\"\nimport \x7b N \x7d from \"mnamed\"\nimport * as NS from \"mstar\"\nimport type \x7b T \x7d from \"mtype\"\n" : String).data }) [], node.modulePath = "mnamed") ∧
    ((∃ e ∈ execAll namespaceRE ("import D from \"mdef\"\nimport \x7b N \x7d from \"mnamed\"\nimport * as NS from \"mstar\"\nimport type \x7b T \x7d from \"mtype\"\n" : String).data, nsPathOf e = "mstar") ∧
      ∃ node ∈ findImportedModules (some { uri := "file:a.ts", text := ("import D from \"mdef\"\nimport \x7b N \x7d from \"mnamed\"\nimport * as NS from \"mstar\"\nimport type \x7b T \x7d from \"mtype\"\n" : String).data }) [], node.modulePath = "mstar") ∧
    ((∃ e ∈ execAll typeRE ("import D from \"mdef\"\nimport \x7b N \x7d from \"mnamed\"\nimport * as NS from \"mstar\"\nimport type \x7b T \x7d from \"mtype\"\n" : String).data, nsPathOf e = "mtype") ∧
      ∃ node ∈ findImportedModules (some { uri := "file:a.ts", text := ("import D from \"mdef\"\nimport \x7b N \x7d from \"mnamed\"\nimport * as NS from \"mstar\"\nimport type \x7b T \x7d from \"mtype\"\n" : String).data }) [], node.modulePath = "mtype") :=
  ⟨⟨by decide, findImportedModules_covers_import_forms _ [] "mdef" (Or.inl (by decide))⟩,
   ⟨by decide, findImportedModules_covers_import_forms _ [] "mnamed" (Or.inl (by decide))⟩,
   ⟨by decide, findImportedModules_covers_import_forms _ [] "mstar" (Or.inr (Or.inl (by decide)))⟩,
   ⟨by decide, findImportedModules_covers_import_forms _ [] "mtype" (Or.inr (Or.inr (by decide)))⟩⟩

/-! ## Claims about the provider state -/

/-- C10: `refresh` empties the member cache and leaves the manually added
packages untouched, so every later export resolution starts from a cache
miss. -/
theorem refresh_clears_cache_keeps_manual (s : ProviderState) :
    (refresh s).memberCache = [] ∧
    (refresh s).manualPackages = s.manualPackages ∧
    ∀ path, cacheGet (refresh s).memberCache path = none :=
  ⟨rfl, rfl, fun _ => rfl⟩

/-- C8: `addPackage` is deduplicating — with the package already present it
leaves the provider state unchanged — and hence idempotent on the whole
state, in particular on the manual-package list. -/
theorem addPackage_idempotent (s : ProviderState) (n : String) :
    addPackage (addPackage s n) n = addPackage s n ∧
    ((s.manualPackages.find? (fun p => p.modulePath == n)).isSome →
      addPackage s n = s) := by
  constructor
  · by_cases h : (s.manualPackages.find? (fun p => p.modulePath == n)).isSome
    · rw [show addPackage s n = s from by rw [addPackage, if_pos h]]
      rw [addPackage, if_pos h]
    · have h1 : addPackage s n =
          { memberCache := cacheDelete s.memberCache n,
            manualPackages := s.manualPackages ++ [mkManualNode n] } := by
        rw [addPackage, if_neg h]
      rw [h1, addPackage, if_pos ?_]
      have : ((s.manualPackages ++ [mkManualNode n]).find?
          (fun p => p.modulePath == n)).isSome := by
        induction s.manualPackages with
        | nil => simp [List.find?, mkManualNode]
        | cons q rest ih =>
          simp only [List.cons_append, List.find?]
          cases hq : (q.modulePath == n) with
          | true => simp
          | false => simpa [hq] using ih
      exact this
  · intro h
    rw [addPackage, if_pos h]

/-- C8 witness. -/
theorem addPackage_idempotent_witness :
    (addPackage (addPackage { memberCache := [], manualPackages := [] } "lodash") "lodash" =
        addPackage { memberCache := [], manualPackages := [] } "lodash") ∧
    ((({ memberCache := [], manualPackages := [mkManualNode "lodash"] } :
        ProviderState).manualPackages.find? (fun p => p.modulePath == "lodash")).isSome ∧
      addPackage { memberCache := [], manualPackages := [mkManualNode "lodash"] } "lodash" =
        { memberCache := [], manualPackages := [mkManualNode "lodash"] }) :=
  ⟨(addPackage_idempotent { memberCache := [], manualPackages := [] } "lodash").1,
   by decide,
   (addPackage_idempotent { memberCache := [], manualPackages := [mkManualNode "lodash"] }
      "lodash").2 (by decide)⟩

/-- C5: `getChildren` with no element runs the import scanner; with an import
node it runs the export resolver; with a member node it returns no children. -/
theorem getChildren_control_flow (host : Host) (editor : Option Document)
    (s : ProviderState) :
    getChildren host editor s none =
      ((findImportedModules editor s.manualPackages).map ExplorerNode.importN,
        s.memberCache, []) ∧
    (∀ n, getChildren host editor s (some (.importN n)) =
      ((getModuleExports host editor s.memberCache n).1.map ExplorerNode.memberN,
        (getModuleExports host editor s.memberCache n).2.1,
        (getModuleExports host editor s.memberCache n).2.2)) ∧
    (∀ m, getChildren host editor s (some (.memberN m)) = ([], s.memberCache, [])) :=
  ⟨rfl, fun _ => rfl, fun _ => rfl⟩

/-- C3: a cache hit returns the cached member list with no host requests and
no cache change, so running the resolver again immediately afterwards gives
the same result. -/
theorem getModuleExports_cached (host : Host) (editor : Option Document)
    (cache : MemberCache) (importNode : ImportNode) (ms : List MemberNode)
    (h : cacheGet cache importNode.modulePath = some ms) :
    getModuleExports host editor cache importNode = (ms, cache, []) ∧
    getModuleExports host editor
        (getModuleExports host editor cache importNode).2.1 importNode =
      (ms, cache, []) := by
  have h1 : getModuleExports host editor cache importNode = (ms, cache, []) := by
    simp only [getModuleExports, h]
  exact ⟨h1, by rw [h1]; simp only [getModuleExports, h]⟩

/-- C3 witness: a host that would answer differently is never consulted on a
cache hit. -/
theorem getModuleExports_cached_witness :
    cacheGet [("m", ([] : List MemberNode))] "m" = some [] ∧
    getModuleExports
        { executeCompletion := fun _ _ _ => .error (),
          executeDefinition := fun _ _ => .error (),
          executeDocumentSymbol := fun _ => .error (),
          executeHover := fun _ _ => .error () }
        none [("m", [])]
        { name := "m", modulePath := "m", isNamespace := false,
          location := { uri := "", start := { line := 0, character := 0 } } } =
      ([], [("m", [])], []) :=
  ⟨by decide,
   (getModuleExports_cached
      { executeCompletion := fun _ _ _ => .error (),
        executeDefinition := fun _ _ => .error (),
        executeDocumentSymbol := fun _ => .error (),
        executeHover := fun _ _ => .error () }
      none [("m", [])]
      { name := "m", modulePath := "m", isNamespace := false,
        location := { uri := "", start := { line := 0, character := 0 } } }
      [] (by decide)).1⟩

/-! ## Shape of the request traces (for C1) -/

theorem symbolsToMembers_trace (host : Host) (defUri modulePath : String) :
    ∀ (syms : List DocumentSymbol) (r : Request),
      r ∈ (symbolsToMembers host defUri modulePath syms).2 → ∃ u p, r = .hover u p := by
  intro syms
  induction syms with
  | nil => intro r hr; simp [symbolsToMembers] at hr
  | cons sym rest ih =>
    intro r hr
    revert hr
    cases hh : host.executeHover defUri sym.selectionStart with
    | error e =>
      simp only [symbolsToMembers, hh]
      intro hr
      simp only [List.mem_singleton] at hr
      exact ⟨defUri, sym.selectionStart, hr⟩
    | ok hopt =>
      rcases hrec : symbolsToMembers host defUri modulePath rest with ⟨res, tr⟩
      cases res with
      | ok ms =>
        simp only [symbolsToMembers, hh, hrec]
        intro hr
        rcases List.mem_cons.1 hr with h1 | h1
        · exact ⟨defUri, sym.selectionStart, h1⟩
        · exact ih r (by rw [hrec]; exact h1)
      | error e =>
        simp only [symbolsToMembers, hh, hrec]
        intro hr
        rcases List.mem_cons.1 hr with h1 | h1
        · exact ⟨defUri, sym.selectionStart, h1⟩
        · exact ih r (by rw [hrec]; exact h1)

theorem getDocumentationForImportedName_trace (host : Host) (uri : String)
    (text : List Char) (name : String) :
    ∀ r ∈ (getDocumentationForImportedName host uri text name).2, ∃ u p, r = .hover u p := by
  intro r hr
  revert hr
  unfold getDocumentationForImportedName
  cases hf : findWordBounded text name.data with
  | none => intro hr; simp at hr
  | some idx =>
    cases hh : host.executeHover uri (positionAt text idx) with
    | error e =>
      simp only [hh]
      intro hr
      simp only [List.mem_singleton] at hr
      exact ⟨uri, positionAt text idx, hr⟩
    | ok hopt =>
      cases hopt with
      | none =>
        simp only [hh]
        intro hr
        simp only [List.mem_singleton] at hr
        exact ⟨uri, positionAt text idx, hr⟩
      | some hovers =>
        simp only [hh]
        split
        · intro hr
          simp only [List.mem_singleton] at hr
          exact ⟨uri, positionAt text idx, hr⟩
        · intro hr
          simp only [List.mem_singleton] at hr
          exact ⟨uri, positionAt text idx, hr⟩

theorem memberOfItem_trace (host : Host) (uri : String) (text : List Char)
    (modulePath : String) (item : CompletionItem) :
    ∀ r ∈ (memberOfItem host uri text modulePath item).2, ∃ u p, r = .hover u p := by
  intro r hr
  revert hr
  simp only [memberOfItem]
  split
  · intro hr
    exact getDocumentationForImportedName_trace host uri text (labelText item.label) r hr
  · intro hr
    simp at hr

theorem processCompletionItems_trace (host : Host) (uri : String) (text : List Char)
    (modulePath : String) :
    ∀ (items : List CompletionItem) (r : Request),
      r ∈ (processCompletionItems host uri text modulePath items).2 →
        ∃ u p, r = .hover u p := by
  intro items
  induction items with
  | nil => intro r hr; simp [processCompletionItems] at hr
  | cons item rest ih =>
    intro r hr
    by_cases hskip : skipItem item = true
    · rw [show processCompletionItems host uri text modulePath (item :: rest) =
          processCompletionItems host uri text modulePath rest from by
        simp only [processCompletionItems, hskip, if_true]] at hr
      exact ih r hr
    · rw [Bool.not_eq_true] at hskip
      simp only [processCompletionItems, hskip, Bool.false_eq_true, if_false] at hr
      rcases List.mem_append.1 hr with h1 | h1
      · exact memberOfItem_trace host uri text modulePath item r h1
      · exact ih r h1

theorem addAlreadyImported_trace (host : Host) (uri : String) (text : List Char)
    (modulePath : String) :
    ∀ (names : List String) (acc : List MemberNode) (r : Request),
      r ∈ (addAlreadyImported host uri text modulePath names acc).2 →
        ∃ u p, r = .hover u p := by
  intro names
  induction names with
  | nil => intro acc r hr; simp [addAlreadyImported] at hr
  | cons name rest ih =>
    intro acc r hr
    by_cases hfound : ((acc.find? (fun m => m.name == name)).isSome : Prop)
    · rw [show addAlreadyImported host uri text modulePath (name :: rest) acc =
          addAlreadyImported host uri text modulePath rest acc from by
        simp only [addAlreadyImported, hfound, if_true]] at hr
      exact ih acc r hr
    · rw [Bool.not_eq_true] at hfound
      simp only [addAlreadyImported, hfound, Bool.false_eq_true, if_false] at hr
      rcases List.mem_append.1 hr with h1 | h1
      · exact getDocumentationForImportedName_trace host uri text name r h1
      · exact ih _ r h1

/-- The fallback always issues a definition request and never a completion
request. -/
theorem getExportsViaDefinition_trace (host : Host) (document : Document)
    (cache : MemberCache) (importNode : ImportNode) :
    Request.definition document.uri importNode.location.start ∈
      (getExportsViaDefinition host document cache importNode).2 ∧
    ∀ u p t, Request.completion u p t ∉
      (getExportsViaDefinition host document cache importNode).2 := by
  unfold getExportsViaDefinition
  cases hdef : host.executeDefinition document.uri importNode.location.start with
  | error e => simp
  | ok dopt =>
    cases dopt with
    | none => simp
    | some defs =>
      cases defs with
      | nil => simp
      | cons d rest =>
        dsimp only
        split
        · simp
        · cases hsym : host.executeDocumentSymbol d.uriOf with
          | error e => simp
          | ok sopt =>
            cases sopt with
            | none => simp
            | some syms =>
              dsimp only
              split
              · simp
              · rcases hrec : symbolsToMembers host d.uriOf importNode.modulePath syms
                  with ⟨res, tr⟩
                have htr : ∀ r ∈ tr, ∃ u p, r = Request.hover u p := by
                  intro r hr
                  exact symbolsToMembers_trace host d.uriOf importNode.modulePath syms r
                    (by rw [hrec]; exact hr)
                cases res with
                | ok ms =>
                  simp only [hrec]
                  constructor
                  · exact List.mem_cons_self _ _
                  · intro u p t hmem
                    rcases List.mem_cons.1 hmem with h1 | h1
                    · exact Request.noConfusion h1
                    · rcases List.mem_cons.1 h1 with h2 | h2
                      · exact Request.noConfusion h2
                      · rcases htr _ h2 with ⟨u', p', hup⟩
                        exact Request.noConfusion hup
                | error e =>
                  simp only [hrec]
                  constructor
                  · exact List.mem_cons_self _ _
                  · intro u p t hmem
                    rcases List.mem_cons.1 hmem with h1 | h1
                    · exact Request.noConfusion h1
                    · rcases List.mem_cons.1 h1 with h2 | h2
                      · exact Request.noConfusion h2
                      · rcases htr _ h2 with ⟨u', p', hup⟩
                        exact Request.noConfusion hup

/-! ## C1: completion first, fallback exactly on empty completions -/

/-- C1: on a cache miss with an active editor, the resolver first issues a
completion request at the synthetic position computed by
`completionPositionInfo` (after the brace of the named-import list, or after
the dot of a namespace usage, with `'.'` as trigger), and its trace contains
a definition request — i.e. the definition/document-symbol fallback ran —
exactly when that completion request returned `undefined` or no items.  When
no suitable position exists the fallback runs without any completion
request. -/
theorem getModuleExports_completion_then_fallback (host : Host) (document : Document)
    (cache : MemberCache) (importNode : ImportNode)
    (hc : cacheGet cache importNode.modulePath = none) :
    (∀ pos trig, completionPositionInfo document.text importNode = some (pos, trig) →
      ((getModuleExports host (some document) cache importNode).2.2.head? =
          some (Request.completion document.uri pos trig) ∧
        ((∃ u p, Request.definition u p ∈
            (getModuleExports host (some document) cache importNode).2.2) ↔
          (host.executeCompletion document.uri pos trig = .ok none ∨
            host.executeCompletion document.uri pos trig = .ok (some []))))) ∧
    (completionPositionInfo document.text importNode = none →
      ((∀ u p t, Request.completion u p t ∉
          (getModuleExports host (some document) cache importNode).2.2) ∧
        ∃ u p, Request.definition u p ∈
          (getModuleExports host (some document) cache importNode).2.2)) := by
  constructor
  · intro pos trig hpi
    cases hcomp : host.executeCompletion document.uri pos trig with
    | error e =>
      have htry : getModuleExportsTry host document cache importNode =
          (.error e, [Request.completion document.uri pos trig]) := by
        simp only [getModuleExportsTry, hpi, hcomp]
      have hge : getModuleExports host (some document) cache importNode =
          ([], cache, [Request.completion document.uri pos trig]) := by
        simp only [getModuleExports, hc, htry]
      rw [hge]
      refine ⟨rfl, iff_of_false ?_ ?_⟩
      · rintro ⟨u, p, hmem⟩
        rcases List.mem_singleton.1 hmem with h1
        exact Request.noConfusion h1
      · rintro (h1 | h1) <;> exact Except.noConfusion h1
    | ok copt =>
      cases copt with
      | none =>
        rcases hfb : getExportsViaDefinition host document cache importNode with ⟨⟨ms, c2⟩, tr⟩
        have htry : getModuleExportsTry host document cache importNode =
            (.ok (ms, c2), Request.completion document.uri pos trig :: tr) := by
          simp only [getModuleExportsTry, hpi, hcomp, hfb]
        have hge : getModuleExports host (some document) cache importNode =
            (ms, c2, Request.completion document.uri pos trig :: tr) := by
          simp only [getModuleExports, hc, htry]
        rw [hge]
        refine ⟨rfl, iff_of_true ?_ (Or.inl rfl)⟩
        have hT := (getExportsViaDefinition_trace host document cache importNode).1
        rw [hfb] at hT
        exact ⟨document.uri, importNode.location.start, List.mem_cons_of_mem _ hT⟩
      | some items =>
        cases items with
        | nil =>
          rcases hfb : getExportsViaDefinition host document cache importNode with ⟨⟨ms, c2⟩, tr⟩
          have htry : getModuleExportsTry host document cache importNode =
              (.ok (ms, c2), Request.completion document.uri pos trig :: tr) := by
            simp only [getModuleExportsTry, hpi, hcomp, hfb, List.length_nil, if_pos]
          have hge : getModuleExports host (some document) cache importNode =
              (ms, c2, Request.completion document.uri pos trig :: tr) := by
            simp only [getModuleExports, hc, htry]
          rw [hge]
          refine ⟨rfl, iff_of_true ?_ (Or.inr rfl)⟩
          have hT := (getExportsViaDefinition_trace host document cache importNode).1
          rw [hfb] at hT
          exact ⟨document.uri, importNode.location.start, List.mem_cons_of_mem _ hT⟩
        | cons it its =>
          rcases hpc : processCompletionItems host document.uri document.text
              importNode.modulePath (it :: its) with ⟨pcm, pctr⟩
          rcases hai : addAlreadyImported host document.uri document.text
              importNode.modulePath
              (getAlreadyImportedNames document.text importNode.modulePath) pcm
            with ⟨aim, aitr⟩
          have htry : getModuleExportsTry host document cache importNode =
              (.ok (sortMembers aim, cacheSet cache importNode.modulePath (sortMembers aim)),
               Request.completion document.uri pos trig :: (pctr ++ aitr)) := by
            simp only [getModuleExportsTry, hpi, hcomp, List.length_cons]
            rw [if_neg (Nat.succ_ne_zero _)]
            rw [hpc]
            simp only [hai]
          have hge : getModuleExports host (some document) cache importNode =
              (sortMembers aim, cacheSet cache importNode.modulePath (sortMembers aim),
               Request.completion document.uri pos trig :: (pctr ++ aitr)) := by
            simp only [getModuleExports, hc, htry]
          rw [hge]
          refine ⟨rfl, iff_of_false ?_ ?_⟩
          · rintro ⟨u, p, hmem⟩
            rcases List.mem_cons.1 hmem with h1 | h1
            · exact Request.noConfusion h1
            · rcases List.mem_append.1 h1 with h2 | h2
              · rcases processCompletionItems_trace host document.uri document.text
                    importNode.modulePath (it :: its) _ (by rw [hpc]; exact h2)
                  with ⟨u', p', h⟩
                exact Request.noConfusion h
              · rcases addAlreadyImported_trace host document.uri document.text
                    importNode.modulePath _ pcm _ (by rw [hai]; exact h2)
                  with ⟨u', p', h⟩
                exact Request.noConfusion h
          · rintro (h1 | h1) <;> simp at h1
  · intro hpi
    rcases hfb : getExportsViaDefinition host document cache importNode with ⟨⟨ms, c2⟩, tr⟩
    have htry : getModuleExportsTry host document cache importNode = (.ok (ms, c2), tr) := by
      simp only [getModuleExportsTry, hpi, hfb]
    have hge : getModuleExports host (some document) cache importNode = (ms, c2, tr) := by
      simp only [getModuleExports, hc, htry]
    rw [hge]
    have hT := getExportsViaDefinition_trace host document cache importNode
    rw [hfb] at hT
    exact ⟨fun u p t => hT.2 u p t, document.uri, importNode.location.start, hT.1⟩

def wCompletionHost : Host :=
  { executeCompletion := fun _ _ _ =>
      .ok (some [{ label := .str "foo", kind := some .Function }]),
    executeDefinition := fun _ _ => .ok none,
    executeDocumentSymbol := fun _ => .ok none,
    executeHover := fun _ _ => .ok none }

def wDoc : Document :=
  { uri := "file:a.ts", text := ("import \x7b foo \x7d from \"m\"" : String).data }

def wNode : ImportNode :=
  { name := "foo", modulePath := "m", isNamespace := false,
    location := { uri := "file:a.ts", start := { line := 0, character := 0 } } }

/-- C1 witness: concrete cache miss with a named import. -/
theorem getModuleExports_completion_then_fallback_witness :
    cacheGet [] wNode.modulePath = none ∧
    completionPositionInfo wDoc.text wNode =
      some ({ line := 0, character := 8 }, none) ∧
    ((getModuleExports wCompletionHost (some wDoc) [] wNode).2.2.head? =
        some (Request.completion wDoc.uri { line := 0, character := 8 } none) ∧
      ((∃ u p, Request.definition u p ∈
          (getModuleExports wCompletionHost (some wDoc) [] wNode).2.2) ↔
        (wCompletionHost.executeCompletion wDoc.uri { line := 0, character := 8 } none =
            .ok none ∨
          wCompletionHost.executeCompletion wDoc.uri { line := 0, character := 8 } none =
            .ok (some [])))) :=
  ⟨by decide, by decide,
   (getModuleExports_completion_then_fallback wCompletionHost wDoc [] wNode (by decide)).1
     { line := 0, character := 8 } none (by decide)⟩

/-! ## C7: hover-derived documentation enrichment -/

theorem memberOfItem_mem_process (host : Host) (uri : String) (text : List Char)
    (modulePath : String) :
    ∀ (items : List CompletionItem) (item : CompletionItem), item ∈ items →
      skipItem item = false →
      (memberOfItem host uri text modulePath item).1 ∈
        (processCompletionItems host uri text modulePath items).1 := by
  intro items
  induction items with
  | nil => intro item h _; cases h
  | cons b rest ih =>
    intro item hmem hskip
    rcases List.mem_cons.1 hmem with h1 | h1
    · subst h1
      simp only [processCompletionItems, hskip, Bool.false_eq_true, if_false]
      exact List.mem_cons_self _ _
    · by_cases hb : skipItem b = true
      · simp only [processCompletionItems, hb, if_true]
        exact ih item h1 hskip
      · rw [Bool.not_eq_true] at hb
        simp only [processCompletionItems, hb, Bool.false_eq_true, if_false]
        exact List.mem_cons_of_mem _ (ih item h1 hskip)

/-- C7: a completion item that is not skipped and carries no documentation of
its own produces a member node whose documentation comes from
`getDocumentationForImportedName`: the hover obtained at the first
word-bounded occurrence of the item's label, its contents joined with blank
lines, or no documentation when the label does not occur (or no hover is
returned). -/
theorem processCompletionItems_hover_enrichment (host : Host) (uri : String)
    (text : List Char) (modulePath : String) (items : List CompletionItem)
    (item : CompletionItem) (hmem : item ∈ items) (hskip : skipItem item = false)
    (hnodoc : jsFalsyStr (itemDocText item) = true) :
    (memberOfItem host uri text modulePath item).1 ∈
      (processCompletionItems host uri text modulePath items).1 ∧
    (memberOfItem host uri text modulePath item).1.doc =
      (getDocumentationForImportedName host uri text (labelText item.label)).1 ∧
    (findWordBounded text (labelText item.label).data = none →
      (memberOfItem host uri text modulePath item).1.doc = none) ∧
    (∀ idx hovers, findWordBounded text (labelText item.label).data = some idx →
      host.executeHover uri (positionAt text idx) = .ok (some hovers) →
      hovers ≠ [] →
      (memberOfItem host uri text modulePath item).1.doc =
        some (hoverJoinFiltered hovers)) := by
  have hdoc : (memberOfItem host uri text modulePath item).1.doc =
      (getDocumentationForImportedName host uri text (labelText item.label)).1 := by
    simp only [memberOfItem, hnodoc, if_true]
  refine ⟨memberOfItem_mem_process host uri text modulePath items item hmem hskip,
    hdoc, ?_, ?_⟩
  · intro hf
    rw [hdoc]
    simp only [getDocumentationForImportedName, hf]
  · intro idx hovers hf hh hne
    rw [hdoc]
    simp only [getDocumentationForImportedName, hf, hh]
    rw [if_pos (List.length_pos.2 hne)]

def wHoverHost : Host :=
  { executeCompletion := fun _ _ _ => .ok none,
    executeDefinition := fun _ _ => .ok none,
    executeDocumentSymbol := fun _ => .ok none,
    executeHover := fun _ _ => .ok (some [{ contents := [.str "foo docs"] }]) }

def wItem : CompletionItem := { label := .str "foo", kind := some .Function }

/-- C7 witness. -/
theorem processCompletionItems_hover_enrichment_witness :
    wItem ∈ [wItem] ∧ skipItem wItem = false ∧
    jsFalsyStr (itemDocText wItem) = true ∧
    ((memberOfItem wHoverHost wDoc.uri wDoc.text "m" wItem).1 ∈
        (processCompletionItems wHoverHost wDoc.uri wDoc.text "m" [wItem]).1 ∧
      (memberOfItem wHoverHost wDoc.uri wDoc.text "m" wItem).1.doc =
        (getDocumentationForImportedName wHoverHost wDoc.uri wDoc.text
          (labelText wItem.label)).1 ∧
      (findWordBounded wDoc.text (labelText wItem.label).data = none →
        (memberOfItem wHoverHost wDoc.uri wDoc.text "m" wItem).1.doc = none) ∧
      (∀ idx hovers, findWordBounded wDoc.text (labelText wItem.label).data = some idx →
        wHoverHost.executeHover wDoc.uri (positionAt wDoc.text idx) = .ok (some hovers) →
        hovers ≠ [] →
        (memberOfItem wHoverHost wDoc.uri wDoc.text "m" wItem).1.doc =
          some (hoverJoinFiltered hovers))) :=
  ⟨by decide, by decide, by decide,
   processCompletionItems_hover_enrichment wHoverHost wDoc.uri wDoc.text "m" [wItem]
     wItem (by decide) (by decide) (by decide)⟩

/-! ## C4: error handling during export resolution -/

def cexHoverErrHost : Host :=
  { executeCompletion := fun _ _ _ =>
      .ok (some [{ label := .str "foo", kind := some .Function }]),
    executeDefinition := fun _ _ => .ok none,
    executeDocumentSymbol := fun _ => .ok none,
    executeHover := fun _ _ => .error () }

/-- C4 counterexample: a hover request issued during documentation enrichment
throws, yet the resolver still returns a non-empty member list — the error is
swallowed inside `getDocumentationForImportedName`, not answered with an
empty result. -/
theorem getModuleExports_hover_error_nonempty :
    cexHoverErrHost.executeHover wDoc.uri { line := 0, character := 9 } = .error () ∧
    Request.hover wDoc.uri { line := 0, character := 9 } ∈
      (getModuleExports cexHoverErrHost (some wDoc) [] wNode).2.2 ∧
    (getModuleExports cexHoverErrHost (some wDoc) [] wNode).1 ≠ [] := by
  decide

/-- C4 (amended): an error thrown by the completion request, or by any host
call inside the definition fallback, is caught by the resolver, which returns
an empty member list and leaves the cache untouched; a hover error thrown
during completion-item documentation enrichment is caught locally inside
`getDocumentationForImportedName`, which yields no documentation text while
resolution continues. -/
theorem getModuleExports_error_handling (host : Host) (document : Document)
    (cache : MemberCache) (importNode : ImportNode)
    (hc : cacheGet cache importNode.modulePath = none) :
    (∀ pos trig, completionPositionInfo document.text importNode = some (pos, trig) →
      host.executeCompletion document.uri pos trig = .error () →
      getModuleExports host (some document) cache importNode =
        ([], cache, [Request.completion document.uri pos trig])) ∧
    (host.executeDefinition document.uri importNode.location.start = .error () →
      getExportsViaDefinition host document cache importNode =
        (([], cache), [Request.definition document.uri importNode.location.start])) ∧
    (∀ d rest, host.executeDefinition document.uri importNode.location.start =
        .ok (some (d :: rest)) →
      d.uriOf ≠ document.uri →
      host.executeDocumentSymbol d.uriOf = .error () →
      getExportsViaDefinition host document cache importNode =
        (([], cache), [Request.definition document.uri importNode.location.start,
          Request.documentSymbol d.uriOf])) ∧
    (∀ d rest syms, host.executeDefinition document.uri importNode.location.start =
        .ok (some (d :: rest)) →
      d.uriOf ≠ document.uri →
      host.executeDocumentSymbol d.uriOf = .ok (some syms) →
      syms.length ≠ 0 →
      (symbolsToMembers host d.uriOf importNode.modulePath syms).1 = .error () →
      getExportsViaDefinition host document cache importNode =
        (([], cache), Request.definition document.uri importNode.location.start ::
          Request.documentSymbol d.uriOf ::
          (symbolsToMembers host d.uriOf importNode.modulePath syms).2)) ∧
    (∀ name idx, findWordBounded document.text name.data = some idx →
      host.executeHover document.uri (positionAt document.text idx) = .error () →
      getDocumentationForImportedName host document.uri document.text name =
        (none, [Request.hover document.uri (positionAt document.text idx)])) := by
  refine ⟨?_, ?_, ?_, ?_, ?_⟩
  · intro pos trig hpi herr
    have htry : getModuleExportsTry host document cache importNode =
        (.error (), [Request.completion document.uri pos trig]) := by
      simp only [getModuleExportsTry, hpi, herr]
    simp only [getModuleExports, hc, htry]
  · intro herr
    simp only [getExportsViaDefinition, herr]
  · intro d rest hdef hne hsym
    simp only [getExportsViaDefinition, hdef]
    rw [if_neg hne]
    simp only [hsym]
  · intro d rest syms hdef hne hsym hlen hsm
    simp only [getExportsViaDefinition, hdef]
    rw [if_neg hne]
    simp only [hsym]
    rcases hsm2 : symbolsToMembers host d.uriOf importNode.modulePath syms with ⟨res, tr⟩
    rw [if_neg hlen]
    rw [hsm2] at hsm
    cases res with
    | ok ms => exact absurd hsm (by simp)
    | error e => rfl
  · intro name idx hf hh
    simp only [getDocumentationForImportedName, hf, hh]

def allErrHost : Host :=
  { executeCompletion := fun _ _ _ => .error (),
    executeDefinition := fun _ _ => .error (),
    executeDocumentSymbol := fun _ => .error (),
    executeHover := fun _ _ => .error () }

def symErrHost : Host :=
  { executeCompletion := fun _ _ _ => .ok none,
    executeDefinition := fun _ _ => .ok (some [.link "file:lib.d.ts"]),
    executeDocumentSymbol := fun _ => .error (),
    executeHover := fun _ _ => .error () }

def wSymbol : DocumentSymbol :=
  { name := "A", detail := "", kind := .Class,
    selectionStart := { line := 0, character := 0 } }

def fbHoverErrHost : Host :=
  { executeCompletion := fun _ _ _ => .ok none,
    executeDefinition := fun _ _ => .ok (some [.link "file:lib.d.ts"]),
    executeDocumentSymbol := fun _ => .ok (some [wSymbol]),
    executeHover := fun _ _ => .error () }

/-- C4 witness for the amended statement. -/
theorem getModuleExports_error_handling_witness :
    cacheGet [] wNode.modulePath = none ∧
    completionPositionInfo wDoc.text wNode =
      some ({ line := 0, character := 8 }, none) ∧
    allErrHost.executeCompletion wDoc.uri { line := 0, character := 8 } none =
      .error () ∧
    findWordBounded wDoc.text ("foo" : String).data = some 9 ∧
    allErrHost.executeHover wDoc.uri (positionAt wDoc.text 9) = .error () ∧
    getModuleExports allErrHost (some wDoc) [] wNode =
      ([], [], [Request.completion wDoc.uri { line := 0, character := 8 } none]) ∧
    getExportsViaDefinition allErrHost wDoc [] wNode =
      (([], []), [Request.definition wDoc.uri wNode.location.start]) ∧
    getExportsViaDefinition symErrHost wDoc [] wNode =
      (([], []), [Request.definition wDoc.uri wNode.location.start,
        Request.documentSymbol "file:lib.d.ts"]) ∧
    getExportsViaDefinition fbHoverErrHost wDoc [] wNode =
      (([], []), Request.definition wDoc.uri wNode.location.start ::
        Request.documentSymbol "file:lib.d.ts" ::
        (symbolsToMembers fbHoverErrHost "file:lib.d.ts" wNode.modulePath [wSymbol]).2) ∧
    getDocumentationForImportedName allErrHost wDoc.uri wDoc.text "foo" =
      (none, [Request.hover wDoc.uri (positionAt wDoc.text 9)]) :=
  ⟨by decide, by decide, by decide, by decide, by decide,
   (getModuleExports_error_handling allErrHost wDoc [] wNode (by decide)).1
     { line := 0, character := 8 } none (by decide) (by decide),
   (getModuleExports_error_handling allErrHost wDoc [] wNode (by decide)).2.1 (by decide),
   (getModuleExports_error_handling symErrHost wDoc [] wNode (by decide)).2.2.1
     (.link "file:lib.d.ts") [] (by decide) (by decide) (by decide),
   (getModuleExports_error_handling fbHoverErrHost wDoc [] wNode (by decide)).2.2.2.1
     (.link "file:lib.d.ts") [] [wSymbol] (by decide) (by decide) (by decide)
     (by decide) (by decide),
   (getModuleExports_error_handling allErrHost wDoc [] wNode (by decide)).2.2.2.2
     "foo" 9 (by decide) (by decide)⟩

/-! ## C9: HTML escaping in the documentation page -/

theorem not_mem_replaceAllChar_self (t : Char) (repl : List Char) (ht : t ∉ repl) :
    ∀ cs : List Char, t ∉ replaceAllChar t repl cs := by
  intro cs
  induction cs with
  | nil => simp [replaceAllChar]
  | cons c rest ih =>
    simp only [replaceAllChar]
    intro hmem
    rcases List.mem_append.1 hmem with h1 | h1
    · by_cases hc : c = t
      · rw [if_pos hc] at h1
        exact ht h1
      · rw [if_neg hc] at h1
        exact hc (List.mem_singleton.1 h1).symm
    · exact ih h1

theorem not_mem_replaceAllChar_pres (x t : Char) (repl : List Char)
    (hx : x ∉ repl) : ∀ cs : List Char, x ∉ cs → x ∉ replaceAllChar t repl cs := by
  intro cs
  induction cs with
  | nil => simp [replaceAllChar]
  | cons c rest ih =>
    intro hcs
    simp only [replaceAllChar]
    intro hmem
    rcases List.mem_append.1 hmem with h1 | h1
    · by_cases hc : c = t
      · rw [if_pos hc] at h1
        exact hx h1
      · rw [if_neg hc] at h1
        exact hcs (by rw [List.mem_singleton.1 h1]; exact List.mem_cons_self _ _)
    · exact ih (fun hm => hcs (List.mem_cons_of_mem _ hm)) h1

/-- After `escapeHtml` no raw `<`, `>` or `"` remains: each was replaced by
its entity. -/
theorem escapeHtml_no_specials (s : String) :
    '<' ∉ (escapeHtml s).data ∧ '>' ∉ (escapeHtml s).data ∧
    '"' ∉ (escapeHtml s).data := by
  have hlt1 : '<' ∉ replaceAllChar '<' "&lt;".data
      (replaceAllChar '&' "&amp;".data s.data) :=
    not_mem_replaceAllChar_self '<' _ (by decide) _
  have hlt2 : '<' ∉ replaceAllChar '>' "&gt;".data (replaceAllChar '<' "&lt;".data
      (replaceAllChar '&' "&amp;".data s.data)) :=
    not_mem_replaceAllChar_pres '<' '>' _ (by decide) _ hlt1
  have hlt3 : '<' ∉ (escapeHtml s).data :=
    not_mem_replaceAllChar_pres '<' '"' _ (by decide) _ hlt2
  have hgt1 : '>' ∉ replaceAllChar '>' "&gt;".data (replaceAllChar '<' "&lt;".data
      (replaceAllChar '&' "&amp;".data s.data)) :=
    not_mem_replaceAllChar_self '>' _ (by decide) _
  have hgt2 : '>' ∉ (escapeHtml s).data :=
    not_mem_replaceAllChar_pres '>' '"' _ (by decide) _ hgt1
  have hq : '"' ∉ (escapeHtml s).data :=
    not_mem_replaceAllChar_self '"' _ (by decide) _
  exact ⟨hlt3, hgt2, hq⟩

theorem replaceAllChar_ne_nil (t : Char) (repl : List Char) (hr : repl ≠ []) :
    ∀ cs : List Char, cs ≠ [] → replaceAllChar t repl cs ≠ [] := by
  intro cs hcs
  cases cs with
  | nil => exact absurd rfl hcs
  | cons c rest =>
    simp only [replaceAllChar]
    intro h
    rcases List.append_eq_nil.1 h with ⟨h1, _⟩
    by_cases hc : c = t
    · rw [if_pos hc] at h1
      exact hr h1
    · rw [if_neg hc] at h1
      exact List.cons_ne_nil c [] h1

theorem escapeHtml_isEmpty_false (s : String) (h : s.isEmpty = false) :
    (escapeHtml s).isEmpty = false := by
  have hs : s.data ≠ [] := by
    intro hd
    rw [Bool.eq_false_iff] at h
    exact h ((String.isEmpty_iff s).2 ((String.ext_iff).2 hd))
  rw [Bool.eq_false_iff]
  intro he
  have := (String.ext_iff).1 ((String.isEmpty_iff _).1 he)
  refine replaceAllChar_ne_nil '"' "&quot;".data (by decide) _ ?_ this
  refine replaceAllChar_ne_nil '>' "&gt;".data (by decide) _ ?_
  refine replaceAllChar_ne_nil '<' "&lt;".data (by decide) _ ?_
  exact replaceAllChar_ne_nil '&' "&amp;".data (by decide) _ hs

/-- `JSON.stringify` performs no HTML escaping: a `<` in the documentation
body survives into the page verbatim. -/
theorem jsonStringify_preserves_lt (s : String) (h : '<' ∈ s.data) :
    '<' ∈ (jsonStringify s).data := by
  show '<' ∈ '"' :: (s.data.flatMap jsonEscapeChar ++ ['"'])
  exact List.mem_cons_of_mem _
    (List.mem_append_left _ (List.mem_flatMap.2 ⟨'<', h, by decide⟩))

/-- C9: the documentation page embeds the member's name, detail and module
path through `escapeHtml` — which eliminates every raw `<`, `>` and `"`,
replacing `&` first so the emitted entities are well-formed — while the
documentation body is embedded unescaped, as a `JSON.stringify` string
literal handed to the client-side Markdown renderer. -/
theorem getDocumentationHtml_embedding (member : MemberNode) :
    (∃ a b, getDocumentationHtml member =
      a ++ ("<h1>" ++ escapeHtml member.name ++ "</h1>") ++ b) ∧
    (∃ a b, getDocumentationHtml member =
      a ++ ("from <code>" ++ escapeHtml member.modulePath ++ "</code></div>") ++ b) ∧
    (member.detail.isEmpty = false → ∃ a b, getDocumentationHtml member =
      a ++ ("<div class=\"signature\">" ++ escapeHtml member.detail ++ "</div>") ++ b) ∧
    (∃ a b, getDocumentationHtml member =
      a ++ ("const docContent = " ++ jsonStringify (docBodyOf member) ++ ";") ++ b) ∧
    (∀ s, '<' ∉ (escapeHtml s).data ∧ '>' ∉ (escapeHtml s).data ∧
      '"' ∉ (escapeHtml s).data) ∧
    (escapeHtml "&" = "&amp;" ∧ escapeHtml "<" = "&lt;" ∧
      escapeHtml ">" = "&gt;" ∧ escapeHtml "\"" = "&quot;") ∧
    (∀ s, '<' ∈ s.data → '<' ∈ (jsonStringify s).data) := by
  refine ⟨?_, ?_, ?_, ?_, escapeHtml_no_specials,
    ⟨by decide, by decide, by decide, by decide⟩, jsonStringify_preserves_lt⟩
  · refine ⟨htmlA ++ escapeHtml member.name ++ htmlB0,
      htmlC0 ++ "from <code>" ++ escapeHtml member.modulePath ++ "</code></div>" ++
        htmlD0 ++
        (if (if member.detail.isEmpty then "" else escapeHtml member.detail).isEmpty
          then "" else "<div class=\"signature\">" ++
            (if member.detail.isEmpty then "" else escapeHtml member.detail) ++ "</div>") ++
        htmlE0 ++ "const docContent = " ++ jsonStringify (docBodyOf member) ++ ";" ++
        htmlF0, ?_⟩
    simp only [getDocumentationHtml, String.append_assoc]
  · refine ⟨htmlA ++ escapeHtml member.name ++ htmlB0 ++ "<h1>" ++
      escapeHtml member.name ++ "</h1>" ++ htmlC0,
      htmlD0 ++
        (if (if member.detail.isEmpty then "" else escapeHtml member.detail).isEmpty
          then "" else "<div class=\"signature\">" ++
            (if member.detail.isEmpty then "" else escapeHtml member.detail) ++ "</div>") ++
        htmlE0 ++ "const docContent = " ++ jsonStringify (docBodyOf member) ++ ";" ++
        htmlF0, ?_⟩
    simp only [getDocumentationHtml, String.append_assoc]
  · intro hd
    have h1 : (if member.detail.isEmpty then "" else escapeHtml member.detail) =
        escapeHtml member.detail := by
      rw [hd]
      simp
    have h2 : (escapeHtml member.detail).isEmpty = false :=
      escapeHtml_isEmpty_false member.detail hd
    refine ⟨htmlA ++ escapeHtml member.name ++ htmlB0 ++ "<h1>" ++
      escapeHtml member.name ++ "</h1>" ++ htmlC0 ++ "from <code>" ++
      escapeHtml member.modulePath ++ "</code></div>" ++ htmlD0,
      htmlE0 ++ "const docContent = " ++ jsonStringify (docBodyOf member) ++ ";" ++
        htmlF0, ?_⟩
    simp only [getDocumentationHtml, h1, h2, Bool.false_eq_true, if_false,
      String.append_assoc]
  · refine ⟨htmlA ++ escapeHtml member.name ++ htmlB0 ++ "<h1>" ++
      escapeHtml member.name ++ "</h1>" ++ htmlC0 ++ "from <code>" ++
      escapeHtml member.modulePath ++ "</code></div>" ++ htmlD0 ++
      (if (if member.detail.isEmpty then "" else escapeHtml member.detail).isEmpty
        then "" else "<div class=\"signature\">" ++
          (if member.detail.isEmpty then "" else escapeHtml member.detail) ++ "</div>") ++
      htmlE0, htmlF0, ?_⟩
    simp only [getDocumentationHtml, String.append_assoc]

def wMember : MemberNode :=
  { name := "a<b", detail := "x", symbolKind := SymbolKind.Function,
    modulePath := "m", doc := some "<i>hi</i>" }

/-- C9 witness. -/
theorem getDocumentationHtml_embedding_witness :
    wMember.detail.isEmpty = false ∧
    (∃ a b, getDocumentationHtml wMember =
      a ++ ("<div class=\"signature\">" ++ escapeHtml wMember.detail ++ "</div>") ++ b) ∧
    '<' ∈ (jsonStringify "<i>hi</i>").data :=
  ⟨by decide,
   (getDocumentationHtml_embedding wMember).2.2.1 (by decide),
   (getDocumentationHtml_embedding wMember).2.2.2.2.2.2 "<i>hi</i>" (by decide)⟩

end TypeExplorer
